import Mathlib

/-!
Verification development for the AHRQ Compendium citation-tracking pipeline
(`compendium_tracker.py` and its collaborators).  The pure core of the
pipeline — relevance scoring (`_score_row`), threshold pruning and per-source
collection (`_collect_citations`), merge/deduplication (`_merge_deduplicate`),
search-term routing (`SEARCH_ROUTING`), DOI normalization
(`pubmed_collector.normalize_data`) and the regex usage classifier
(`usage_classifier.classify_usage`) — is embedded shallowly below.

Modelling conventions:
* Python strings are Lean `String`s; character-level operations (`lower`,
  `strip`, substring containment, `\W` removal, `split()`) are implemented on
  `List Char` mirroring Python's ASCII behaviour.
* Floating-point scores are modelled as `ℚ`; every configured weight in
  `config.RELEVANCE_WEIGHTS` is a multiple of 0.5, so all additions performed
  by the scorer are exact in both models.
* A pandas DataFrame of citations is a `List Row` in arrival order; absent
  cells (`None`/`NaN`) are `Option.none`.  `drop_duplicates` keeps the first
  occurrence of every key and treats two missing values as equal keys, which
  the embedding reproduces (`Option` equality).
* `sort_values('year_numeric', ascending=False)` sorts descending by year
  with absent years placed last (pandas' `na_position` default), but uses
  pandas' default `kind='quicksort'`, which is documented as not stable: the
  relative order of rows with equal years is unspecified.  The executable
  `sortRows` below is one admissible such order; every order-sensitive
  property proved about the merge is proved for *all* admissible descending
  orders (an arbitrary sorted permutation of the input) and only then
  instantiated at `sortRows`, so nothing below relies on tie-break
  behaviour the program does not provide.
* The regex engine is abstracted: a compiled pattern is a match-span oracle
  `String → List (Nat × Nat)` (the spans `finditer` would return) together
  with its source text; escaped URL literals get the concrete
  case-insensitive substring matcher.
-/

namespace Ahrq

/-- ASCII lowercasing of one character, modelling Python `str.lower` on the
ASCII fragment: uppercase letters are shifted by 32, everything else is
unchanged. -/
def lowerChar (c : Char) : Char :=
  if h : c.isUpper then
    ⟨c.val + 32, by
      rcases Bool.and_eq_true_iff.mp h with ⟨_, hb⟩
      have h2 : c.val ≤ 90 := of_decide_eq_true hb
      have h2n : c.val.toNat ≤ 90 := h2
      have hadd : (c.val + 32).toNat = (c.val.toNat + 32) % 4294967296 := rfl
      left
      show (c.val + 32).toNat < 55296
      omega⟩
  else c

/-- Lowercase a character list (Python `str.lower`). -/
def lowerChars (l : List Char) : List Char :=
  l.map lowerChar

/-- Lowercase a string (Python `str.lower`). -/
def lowerStr (s : String) : String :=
  ⟨lowerChars s.data⟩

/-- Python `str.strip()`: drop leading and trailing whitespace. -/
def pstrip (l : List Char) : List Char :=
  ((l.dropWhile Char.isWhitespace).reverse.dropWhile Char.isWhitespace).reverse

/-- Substring containment on character lists: Python's `needle in hay`. -/
def containsSub : List Char → List Char → Bool
  | [], needle => needle.isEmpty
  | h :: t, needle => needle.isPrefixOf (h :: t) || containsSub t needle

/-- Python `"".join`-style concatenation with a separator (`sep.join(parts)`). -/
def joinSep (sep : String) : List String → String
  | [] => ""
  | [s] => s
  | s :: rest => s ++ sep ++ joinSep sep rest

/-- Word counting for Python `len(s.split())`: number of maximal runs of
non-whitespace characters.  The `inWord` flag records whether the previous
character was part of a word. -/
def countWordsAux (inWord : Bool) : List Char → Nat
  | [] => 0
  | c :: cs =>
      if c.isWhitespace then countWordsAux false cs
      else (if inWord then 0 else 1) + countWordsAux true cs

/-- Number of whitespace-separated tokens, Python `len(s.split())`. -/
def countWords (l : List Char) : Nat :=
  countWordsAux false l

/-- Python `str.isdigit` (ASCII fragment): nonempty and all digits. -/
def pyIsDigit (s : String) : Bool :=
  !s.data.isEmpty && s.data.all Char.isDigit

/-- A word character for Python's regex `\W` complement: `[A-Za-z0-9_]`. -/
def isWordChar (c : Char) : Bool :=
  c.isAlphanum || c == '_'

/-- The canonical citation record: one row of the normalized DataFrame.
Absent `year`/`doi` cells are `none`.  Only the columns read by the scoring
and merge/dedup code are modelled; the remaining columns are inert payload. -/
structure Row where
  title : String
  author_string : String
  journal : String
  year : Option Int
  doi : Option String
  pmid : String
  abstract : String
deriving DecidableEq, Repr

/-- The keyword registry loaded from `keywords.yaml` (`KeywordLoader`):
one list of literal terms per signal category, plus the URL lists used by the
usage classifier. -/
structure Keywords where
  canonical_terms : List String
  dataset_author_seeds : List String
  integration_terms : List String
  scope_terms : List String
  journal_whitelist : List String
  neg_geography : List String
  neg_domain : List String
  exact_urls : List String
  pdf_urls : List String
deriving Repr

/-- Signal-class weights (`config.RELEVANCE_WEIGHTS`). -/
structure Weights where
  keyword_hit : ℚ
  canonical_term : ℚ
  dataset_author_seed : ℚ
  integration_term : ℚ
  scope_term : ℚ
  journal_whitelist : ℚ
  neg_geography : ℚ
  neg_domain : ℚ
  short_title : ℚ
  old_paper : ℚ
deriving Repr

/-- The configured weights from `config.py` (`RELEVANCE_WEIGHTS`). -/
def defaultWeights : Weights :=
  { keyword_hit := 1/2
    canonical_term := 2
    dataset_author_seed := 3/2
    integration_term := 1
    scope_term := 1
    journal_whitelist := 1/2
    neg_geography := -1
    neg_domain := -1
    short_title := 0
    old_paper := -1/2 }

/-- `config.RELEVANCE_THRESHOLD`. -/
def defaultThreshold : ℚ := 0

/-- The combined search text of `_score_row`:
`f"{title} {abstract}".lower()` where `title` and `abstract` have been
`.strip()`ed. -/
def searchText (r : Row) : List Char :=
  lowerChars (pstrip r.title.data ++ ' ' :: pstrip r.abstract.data)

/-- Canonical-term matches of `_score_row` (signal class A):
`[term for term in canonical_terms if term.lower() in text]`. -/
def canonicalMatches (kl : Keywords) (r : Row) : List String :=
  kl.canonical_terms.filter (fun t => containsSub (searchText r) (lowerChars t.data))

/-- Signal class A fires iff some canonical term matches. -/
def canonicalFires (kl : Keywords) (r : Row) : Bool :=
  !(canonicalMatches kl r).isEmpty

/-- The numeric dataset-author seeds (`item.isdigit()` partition). -/
def seedPmids (kl : Keywords) : List String :=
  kl.dataset_author_seeds.filter pyIsDigit

/-- The author-name dataset-author seeds (non-digit partition). -/
def seedAuthors (kl : Keywords) : List String :=
  kl.dataset_author_seeds.filter (fun s => !pyIsDigit s)

/-- `any(p in pmid for p in seed_pmids)` of `_score_row`. -/
def hasSeedCite (kl : Keywords) (r : Row) : Bool :=
  (seedPmids kl).any (fun p => containsSub (pstrip r.pmid.data) p.data)

/-- Matching seed author names:
`[a for a in seed_authors if a.lower() in authors.lower()]`. -/
def seedAuthorMatches (kl : Keywords) (r : Row) : List String :=
  (seedAuthors kl).filter
    (fun a => containsSub (lowerChars (pstrip r.author_string.data)) (lowerChars a.data))

/-- Signal class B fires iff the record cites a seed PMID or lists a seed
author. -/
def seedFires (kl : Keywords) (r : Row) : Bool :=
  hasSeedCite kl r || !(seedAuthorMatches kl r).isEmpty

/-- Integration-term matches (signal class C). -/
def integrationMatches (kl : Keywords) (r : Row) : List String :=
  kl.integration_terms.filter (fun t => containsSub (searchText r) (lowerChars t.data))

/-- Signal class C fires iff some integration term matches. -/
def integrationFires (kl : Keywords) (r : Row) : Bool :=
  !(integrationMatches kl r).isEmpty

/-- Scope-term matches (signal class D). -/
def scopeMatches (kl : Keywords) (r : Row) : List String :=
  kl.scope_terms.filter (fun t => containsSub (searchText r) (lowerChars t.data))

/-- Signal class D fires iff some scope term matches. -/
def scopeFires (kl : Keywords) (r : Row) : Bool :=
  !(scopeMatches kl r).isEmpty

/-- The stripped journal name used for the whitelist lookup. -/
def journalStr (r : Row) : String :=
  ⟨pstrip r.journal.data⟩

/-- Signal class E: `journal in journal_whitelist` (exact match). -/
def journalFires (kl : Keywords) (r : Row) : Bool :=
  kl.journal_whitelist.contains (journalStr r)

/-- Negative-geography matches (signal class F). -/
def geoMatches (kl : Keywords) (r : Row) : List String :=
  kl.neg_geography.filter (fun t => containsSub (searchText r) (lowerChars t.data))

/-- Signal class F fires iff some negative-geography term matches. -/
def geoFires (kl : Keywords) (r : Row) : Bool :=
  !(geoMatches kl r).isEmpty

/-- Negative-domain matches (signal class G). -/
def domMatches (kl : Keywords) (r : Row) : List String :=
  kl.neg_domain.filter (fun t => containsSub (searchText r) (lowerChars t.data))

/-- Signal class G fires iff some negative-domain term matches. -/
def domFires (kl : Keywords) (r : Row) : Bool :=
  !(domMatches kl r).isEmpty

/-- Short-title heuristic: `len(title.split()) < 5`. -/
def shortTitleFlag (r : Row) : Bool :=
  decide (countWords (pstrip r.title.data) < 5)

/-- Old-paper heuristic: `if year and int(year) < 2008` (a zero year is falsy
in Python, so it does not trigger the penalty). -/
def oldPaperFlag (r : Row) : Bool :=
  match r.year with
  | some y => decide (y ≠ 0) && decide (y < 2008)
  | none => false

/-- The composite score computed by `_score_row` (`stage2_score`): the
baseline `keyword_hit` weight is always added, then each signal class adds
its weight once iff it fires, in the order the code accumulates them. -/
def scoreRow (w : Weights) (kl : Keywords) (r : Row) : ℚ :=
  w.keyword_hit
  + (if canonicalFires kl r then w.canonical_term else 0)
  + (if seedFires kl r then w.dataset_author_seed else 0)
  + (if integrationFires kl r then w.integration_term else 0)
  + (if scopeFires kl r then w.scope_term else 0)
  + (if journalFires kl r then w.journal_whitelist else 0)
  + (if geoFires kl r then w.neg_geography else 0)
  + (if domFires kl r then w.neg_domain else 0)
  + (if shortTitleFlag r then w.short_title else 0)
  + (if oldPaperFlag r then w.old_paper else 0)

/-- The fired signal flags recorded by `_score_row` in its `flags` dict, in
insertion order (the flags do not depend on the configured weights). -/
def scoreFlags (kl : Keywords) (r : Row) : List String :=
  ["keyword_hit"]
  ++ (if canonicalFires kl r then ["canonical_term"] else [])
  ++ (if seedFires kl r then ["dataset_author_seed"] else [])
  ++ (if integrationFires kl r then ["integration_term"] else [])
  ++ (if scopeFires kl r then ["scope_term"] else [])
  ++ (if journalFires kl r then ["journal_whitelist"] else [])
  ++ (if geoFires kl r then ["neg_geography"] else [])
  ++ (if domFires kl r then ["neg_domain"] else [])
  ++ (if shortTitleFlag r then ["short_title"] else [])
  ++ (if oldPaperFlag r then ["old_paper"] else [])

/-- The `score_flags` column: `",".join(flags)`. -/
def scoreFlagsString (kl : Keywords) (r : Row) : String :=
  joinSep "," (scoreFlags kl r)

/-- Threshold pruning of `_collect_citations`:
`df = df[df["stage2_score"] >= threshold]`. -/
def pruneByThreshold (w : Weights) (kl : Keywords) (th : ℚ) (l : List Row) : List Row :=
  l.filter (fun r => decide (th ≤ scoreRow w kl r))

/-- Per-source collection (`_collect_citations`): each collector either
raises (`Except.error`, caught and logged per source) or returns its raw
result rows.  A non-raising, nonempty result is scored and pruned; sources
whose result is empty — before or after pruning — contribute no entry.
The returned association list maps surviving source names to their pruned
rows, in collector order. -/
def collectCitations (w : Weights) (kl : Keywords) (th : ℚ)
    (sources : List (String × Except String (List Row))) : List (String × List Row) :=
  sources.filterMap (fun nr =>
    match nr.2 with
    | Except.error _ => none
    | Except.ok rows =>
        if rows.isEmpty then none
        else
          let pruned := pruneByThreshold w kl th rows
          if pruned.isEmpty then none else some (nr.1, pruned))

/-- The static routing matrix `CompendiumTracker.SEARCH_ROUTING`. -/
def SEARCH_ROUTING : List (String × List (String × Bool)) :=
  [ ("exact_urls", [("pubmed", false), ("openalex", false), ("scholar", true)])
  , ("pdf_urls", [("pubmed", false), ("openalex", false), ("scholar", true)])
  , ("phrase_variants", [("pubmed", true), ("openalex", true), ("scholar", true)])
  , ("year_combos", [("pubmed", true), ("openalex", true), ("scholar", true)])
  , ("ahrq_combos", [("pubmed", true), ("openalex", true), ("scholar", true)])
  , ("funding_acknowledgment", [("pubmed", true), ("openalex", true), ("scholar", true)]) ]

/-- The routing decision `SEARCH_ROUTING.get(category, {}).get(name, True)`:
a missing category row and a missing source name both default to `true`. -/
def routeLookup (category name : String) : Bool :=
  ((List.lookup name ((List.lookup category SEARCH_ROUTING).getD [])).getD true)

/-- `KeywordLoader.get_category_for_term`: the first YAML category whose
term list contains the term, else `"unknown"`. -/
def getCategoryForTerm (keywords : List (String × List String)) (term : String) : String :=
  match keywords.find? (fun kv => kv.2.contains term) with
  | some kv => kv.1
  | none => "unknown"

/-- The per-collector term filter of `_collect_citations`: keep a term iff
the routing matrix routes its category to this collector. -/
def filteredTerms (keywords : List (String × List String)) (name : String)
    (terms : List String) : List String :=
  terms.filter (fun t => routeLookup (getCategoryForTerm keywords t) name)

/-- DOI lowercasing applied by `_merge_deduplicate`:
`merged_df['doi'] = merged_df['doi'].str.lower()` (missing values stay
missing). -/
def lowerDoiRow (r : Row) : Row :=
  { r with doi := r.doi.map lowerStr }

/-- The normalized title used as the fallback dedup key:
`title.str.replace(r'\W+', '', regex=True).str.lower()`. -/
def titleNorm (t : String) : String :=
  ⟨lowerChars (t.data.filter isWordChar)⟩

/-- Comparison of sortable years: pandas puts missing years (`NaN`) last in
a descending sort, so `none` ranks below every concrete year. -/
def rankLe : Option Int → Option Int → Bool
  | none, _ => true
  | some _, none => false
  | some x, some y => decide (x ≤ y)

/-- Row `a` may be placed before row `b` in the descending-year order. -/
def leRow (a b : Row) : Bool :=
  rankLe b.year a.year

/-- Insertion into a descending-year-sorted list. -/
def insertRow (a : Row) : List Row → List Row
  | [] => [a]
  | x :: xs => if leRow a x then a :: x :: xs else x :: insertRow a xs

/-- One admissible output of the descending-year sort of
`_merge_deduplicate` (`sort_values('year_numeric', ascending=False)`,
missing years last).  The pandas default `kind='quicksort'` is not stable,
so the program pins no particular order among equal-year rows; order-
sensitive theorems below are therefore proved for every descending-sorted
permutation of the input and merely instantiated at this executable
refinement. -/
def sortRows : List Row → List Row
  | [] => []
  | a :: l => insertRow a (sortRows l)

/-- `drop_duplicates(subset=[key], keep='first')`: keep each row whose key
has not been seen earlier in the list.  Like pandas, two missing key values
count as equal. -/
def dedupAux {κ : Type} [DecidableEq κ] (key : Row → κ) (seen : List κ) :
    List Row → List Row
  | [] => []
  | r :: rest =>
      if key r ∈ seen then dedupAux key seen rest
      else r :: dedupAux key (key r :: seen) rest

/-- Deduplicate a row list by a key, keeping first occurrences. -/
def dedupKeys {κ : Type} [DecidableEq κ] (key : Row → κ) (l : List Row) : List Row :=
  dedupAux key [] l

/-- The concatenated, DOI-lowercased collection of all per-source results,
in arrival order (`pd.concat` then `doi.str.lower()`). -/
def mergedRows (dfs : List (List Row)) : List Row :=
  (dfs.foldr (· ++ ·) []).map lowerDoiRow

/-- The state of `_merge_deduplicate` after the year sort and the DOI
deduplication pass. -/
def doiStage (dfs : List (List Row)) : List Row :=
  dedupKeys (fun r => r.doi) (sortRows (mergedRows dfs))

/-- `_merge_deduplicate`: concatenate, lowercase DOIs, sort by year
descending (absent years last), then drop duplicates first by DOI and then
by normalized title, keeping first occurrences. -/
def mergeDeduplicate (dfs : List (List Row)) : List Row :=
  dedupKeys (fun r => titleNorm r.title) (doiStage dfs)

/-- The pipeline prefix `run()` executes unconditionally: collect per source,
then merge and deduplicate the surviving contributions (the resulting frame
is what the report generators consume). -/
def runPipeline (w : Weights) (kl : Keywords) (th : ℚ)
    (sources : List (String × Except String (List Row))) : List Row :=
  mergeDeduplicate ((collectCitations w kl th sources).map Prod.snd)

/-- DOI normalization of `pubmed_collector.normalize_data` (OpenAlex uses
the identical expression):
`doi = article.get('doi', '').lower() if article.get('doi') else None`.
A missing or empty (falsy) raw DOI becomes `None`; otherwise the raw string
is lowercased — with no whitespace stripping. -/
def normalizeDoi (raw : Option String) : Option String :=
  match raw with
  | none => none
  | some s => if s = "" then none else some (lowerStr s)

/-- A string is fully lowercase when it contains no uppercase letter. -/
def isLowerStr (s : String) : Bool :=
  s.data.all (fun c => !c.isUpper)

/-- A compiled usage pattern: the regex engine is abstracted as the list of
match spans `finditer` yields on a given text, together with the pattern's
source text. -/
structure RegexPat where
  source : String
  find : String → List (Nat × Nat)

/-- Match spans of a literal, case-insensitively compiled pattern
(`re.compile(re.escape(url), re.IGNORECASE)`): every position where the
lowercased literal occurs in the lowercased text. -/
def literalSpans (lit : String) (text : String) : List (Nat × Nat) :=
  (List.range (text.data.length + 1)).filterMap (fun i =>
    if (lowerChars lit.data).isPrefixOf ((lowerChars text.data).drop i)
    then some (i, i + lit.data.length) else none)

/-- The compiled pattern for an escaped URL literal.  (`re.escape` only
changes the pattern's textual source, not the literal occurrences it
matches.) -/
def literalPattern (url : String) : RegexPat :=
  { source := url, find := literalSpans url }

/-- `UsageClassifier._compile_regex_patterns`: the compiled
`regex_usage_patterns` followed by one escaped-literal pattern per registry
URL (`exact_urls ++ pdf_urls`).  Patterns whose compilation fails are
dropped by the source before this point, so `raws` holds the surviving
compiled regexes. -/
def compilePatterns (raws : List RegexPat) (urls : List String) : List RegexPat :=
  raws ++ urls.map literalPattern

/-- Python slice `l[s:e]` (with `0 ≤ s ≤ e`). -/
def sliceChars (l : List Char) (s e : Nat) : List Char :=
  (l.drop s).take (e - s)

/-- Python `str.replace` on character lists: replace every occurrence of
`needle` by `repl`; an empty needle inserts `repl` at every position. -/
def replaceAll (needle repl : List Char) : List Char → List Char
  | [] => if needle.isEmpty then repl else []
  | c :: rest =>
      if h : needle.isEmpty then repl ++ c :: replaceAll needle repl rest
      else if needle.isPrefixOf (c :: rest) then
        repl ++ replaceAll needle repl ((c :: rest).drop needle.length)
      else c :: replaceAll needle repl rest
termination_by l => l.length
decreasing_by
  · simp
  · have hn : needle.length ≠ 0 := by
      simpa [List.isEmpty_iff_length_eq_zero] using h
    simp [List.length_drop]
    omega

/-- The classification result dictionary of `classify_usage`. -/
structure ClassifyResult where
  uses_compendium : Nat
  method : String
  matched_patterns : List String
  evidence : String
deriving DecidableEq, Repr

/-- The highlighted ±100-character contexts `_classify_with_regex` collects
for the first three matches of one pattern. -/
def evidenceFor (p : RegexPat) (text : String) : List String :=
  ((p.find text).take 3).map (fun se =>
    let context := sliceChars text.data (se.1 - 100) (min text.data.length (se.2 + 100))
    let highlight := sliceChars text.data se.1 se.2
    ⟨pstrip (replaceAll highlight ('*' :: '*' :: highlight ++ ['*', '*']) context)⟩)

/-- `UsageClassifier._classify_with_regex`: run every compiled pattern over
the text; the record "uses" the Compendium iff at least one pattern matched,
and the matching patterns' sources and highlighted contexts are reported. -/
def classifyWithRegex (patterns : List RegexPat) (text : String) : ClassifyResult :=
  let matchedP := patterns.filter (fun p => !(p.find text).isEmpty)
  { uses_compendium := if matchedP.isEmpty then 0 else 1
    method := "regex"
    matched_patterns := matchedP.map (fun p => p.source)
    evidence := joinSep "\n---\n" (matchedP.flatMap (fun p => evidenceFor p text)) }

/-- `UsageClassifier.classify_usage`: empty text short-circuits to the
`method="none"` result; otherwise the regex classifier runs, and its result
is returned unless it found nothing, spaCy classification is enabled and a
model is loaded (`useSpacy` folds `use_spacy and nlp is not None`), in which
case the external spaCy classifier decides. -/
def classifyUsage (patterns : List RegexPat) (useSpacy : Bool)
    (spacyClassify : String → ClassifyResult) (text : String) : ClassifyResult :=
  if text = "" then
    { uses_compendium := 0, method := "none", matched_patterns := [], evidence := "" }
  else
    let r := classifyWithRegex patterns text
    if r.uses_compendium == 1 || !useSpacy then r else spacyClassify text

/-- A small concrete registry, used to instantiate theorems with hypotheses
on concrete inputs. -/
def sampleKeywords : Keywords :=
  { canonical_terms := ["Compendium of U.S. Health Systems", "AHRQ Compendium"]
    dataset_author_seeds := ["30674227", "Furukawa"]
    integration_terms := ["vertical integration"]
    scope_terms := ["health system"]
    journal_whitelist := ["Health Services Research"]
    neg_geography := ["Taiwan"]
    neg_domain := ["nanoparticle"]
    exact_urls := ["https://www.ahrq.gov/chsp/data-resources/compendium.html"]
    pdf_urls := [] }

/-- A concrete high-relevance citation row. -/
def sampleRow : Row :=
  { title := "Hospital integration using the AHRQ Compendium of U.S. Health Systems"
    author_string := "Furukawa Michael"
    journal := "Health Services Research"
    year := some 2020
    doi := some "10.1/abc"
    pmid := "12345"
    abstract := "We linked the Compendium to ACO files" }

/-- A row whose abstract does not yet mention the Compendium, used to
instantiate the scoring-monotonicity theorem. -/
def monoRow : Row :=
  { title := "a plain paper about something"
    author_string := ""
    journal := ""
    year := some 2020
    doi := none
    pmid := ""
    abstract := "initial text" }

/-- A registry in which every signal category fires on `dupRow`, used to
instantiate the no-double-counting theorem. -/
def dupKeywords : Keywords :=
  { canonical_terms := ["study"]
    dataset_author_seeds := ["smith"]
    integration_terms := ["canada"]
    scope_terms := ["health"]
    journal_whitelist := []
    neg_geography := ["canada"]
    neg_domain := ["nanoparticle"]
    exact_urls := []
    pdf_urls := [] }

/-- A row matching every category of `dupKeywords`. -/
def dupRow : Row :=
  { title := "smith canada nanoparticle study of health"
    author_string := "smith"
    journal := ""
    year := some 2020
    doi := none
    pmid := ""
    abstract := "" }

/-- Rows for the DOI-dedup analysis: `cexA` and `cexB` share a DOI, `cexC`
shares `cexA`'s normalized title under a different DOI and a later year. -/
def cexA : Row :=
  { title := "foo", author_string := "", journal := "", year := some 2019
    doi := some "10.1/x", pmid := "", abstract := "" }

/-- Same DOI as `cexA`, older year, different title. -/
def cexB : Row :=
  { title := "bar", author_string := "", journal := "", year := some 2018
    doi := some "10.1/x", pmid := "", abstract := "" }

/-- Same normalized title as `cexA`, different DOI, latest year. -/
def cexC : Row :=
  { title := "foo", author_string := "", journal := "", year := some 2020
    doi := some "10.2/y", pmid := "", abstract := "" }

/-- An identity-less record (no DOI, empty title), year 2020. -/
def blankRow1 : Row :=
  { title := "", author_string := "", journal := "", year := some 2020
    doi := none, pmid := "", abstract := "" }

/-- A second identity-less record (no DOI, empty title), year 2019. -/
def blankRow2 : Row :=
  { title := "", author_string := "", journal := "", year := some 2019
    doi := none, pmid := "", abstract := "" }

/-- A trivial spaCy stand-in for instantiating classifier theorems. -/
def nullSpacy : String → ClassifyResult :=
  fun _ => { uses_compendium := 0, method := "spaCy", matched_patterns := [], evidence := "" }

/-!  Theorems.  -/

/-- A string with nonempty character data is not the empty string. -/
theorem ne_empty_of_data_ne_nil (s : String) (h : s.data ≠ []) : s ≠ "" :=
  fun he => h (by rw [he])

/-- Joining a list headed by a nonempty string never yields the empty
string. -/
theorem joinSep_cons_ne_empty (sep a : String) (l : List String)
    (h : a.data ≠ []) : joinSep sep (a :: l) ≠ "" := by
  cases l with
  | nil => exact ne_empty_of_data_ne_nil a h
  | cons b bs =>
      apply ne_empty_of_data_ne_nil
      have hrw : joinSep sep (a :: b :: bs) = a ++ sep ++ joinSep sep (b :: bs) := rfl
      rw [hrw, String.data_append, String.data_append]
      simp [h]

/-- C3 (threshold gate): a record of a per-source collection survives
pruning iff its relevance score is at least the threshold — a score below
the threshold implies absence from the pruned collection, a score at or
above it implies presence. -/
theorem prune_mem_iff_score_ge (w : Weights) (kl : Keywords) (th : ℚ)
    (l : List Row) (r : Row) (h : r ∈ l) :
    r ∈ pruneByThreshold w kl th l ↔ th ≤ scoreRow w kl r := by
  simp [pruneByThreshold, List.mem_filter, h]

/-- Witness for `prune_mem_iff_score_ge` at a concrete record: the sample
row scores 11/2 ≥ 0 and is therefore kept at the default threshold. -/
theorem prune_mem_iff_score_ge_witness :
    sampleRow ∈ pruneByThreshold defaultWeights sampleKeywords defaultThreshold [sampleRow] := by
  apply (prune_mem_iff_score_ge defaultWeights sampleKeywords defaultThreshold
    [sampleRow] sampleRow (by simp)).mpr
  have hc : canonicalFires sampleKeywords sampleRow = true := by decide
  have hs : seedFires sampleKeywords sampleRow = true := by decide
  have hi : integrationFires sampleKeywords sampleRow = false := by decide
  have hsc : scopeFires sampleKeywords sampleRow = true := by decide
  have hj : journalFires sampleKeywords sampleRow = true := by decide
  have hg : geoFires sampleKeywords sampleRow = false := by decide
  have hd : domFires sampleKeywords sampleRow = false := by decide
  have hst : shortTitleFlag sampleRow = false := by decide
  have hop : oldPaperFlag sampleRow = false := by decide
  simp only [scoreRow, defaultWeights, defaultThreshold,
    hc, hs, hi, hsc, hj, hg, hd, hst, hop]
  norm_num

/-- C8 (per-source failure isolation): a collector that raises contributes
nothing, every other source's contribution is exactly as in the run without
the failing source, and the pipeline still proceeds to merge/dedup on the
remaining contributions. -/
theorem collect_failure_isolated (w : Weights) (kl : Keywords) (th : ℚ)
    (pre post : List (String × Except String (List Row))) (n e : String) :
    collectCitations w kl th (pre ++ (n, Except.error e) :: post)
        = collectCitations w kl th (pre ++ post) ∧
    runPipeline w kl th (pre ++ (n, Except.error e) :: post)
        = runPipeline w kl th (pre ++ post) := by
  have h : collectCitations w kl th (pre ++ (n, Except.error e) :: post)
      = collectCitations w kl th (pre ++ post) := by
    simp [collectCitations, List.filterMap_append]
  exact ⟨h, by simp [runPipeline, h]⟩

/-- C9 (routing defaults): the routing lookup defaults to `true` both for a
category missing from `SEARCH_ROUTING` and for a source name missing from a
category's row; `"unknown"` is not a routing key; hence a term whose
category is not in the table is passed to every collector. -/
theorem routing_defaults (keywords : List (String × List String))
    (category name term : String) (terms : List String) :
    (List.lookup category SEARCH_ROUTING = none → routeLookup category name = true) ∧
    (∀ m, List.lookup category SEARCH_ROUTING = some m → List.lookup name m = none →
      routeLookup category name = true) ∧
    List.lookup "unknown" SEARCH_ROUTING = none ∧
    (term ∈ terms → List.lookup (getCategoryForTerm keywords term) SEARCH_ROUTING = none →
      term ∈ filteredTerms keywords name terms) := by
  refine ⟨?_, ?_, by decide, ?_⟩
  · intro h
    simp [routeLookup, h]
  · intro m hm hn
    simp [routeLookup, hm, hn]
  · intro ht hc
    simp only [filteredTerms, List.mem_filter]
    exact ⟨ht, by simp [routeLookup, hc]⟩

/-- Witness for `routing_defaults`: a term belonging to no YAML category
resolves to `"unknown"`, which is not a routing key, so it is routed to the
`pubmed` collector. -/
theorem routing_defaults_witness :
    "zzz" ∈ filteredTerms [("phrase_variants", ["a"])] "pubmed" ["zzz"] :=
  (routing_defaults [("phrase_variants", ["a"])] "unknown" "pubmed" "zzz" ["zzz"]).2.2.2
    (by decide) (by decide)

/-- C10 (baseline signal): the `keyword_hit` flag is always the first fired
flag, the `score_flags` string is never empty, and the composite score
always contains the `keyword_hit` weight as a summand. -/
theorem keyword_hit_always_fires (w : Weights) (kl : Keywords) (r : Row) :
    (scoreFlags kl r).head? = some "keyword_hit" ∧
    "keyword_hit" ∈ scoreFlags kl r ∧
    scoreFlagsString kl r ≠ "" ∧
    (∀ c : ℚ, scoreRow { w with keyword_hit := c } kl r
        = c + scoreRow { w with keyword_hit := 0 } kl r) := by
  refine ⟨?_, ?_, ?_, ?_⟩
  · simp [scoreFlags]
  · simp [scoreFlags]
  · have hform : scoreFlags kl r = "keyword_hit" :: (scoreFlags kl r).tail := by
      simp [scoreFlags]
    rw [scoreFlagsString, hform]
    exact joinSep_cons_ne_empty "," "keyword_hit" _ (by decide)
  · intro c
    simp only [scoreRow]
    ring

/-- A filtered list is nonempty exactly when some element satisfies the
filter. -/
theorem filter_isEmpty_eq_false_iff {α : Type} (f : α → Bool) (l : List α) :
    ((l.filter f).isEmpty = false) ↔ ∃ x ∈ l, f x = true := by
  induction l with
  | nil => simp
  | cons a l ih =>
      by_cases hf : f a
      · simp [List.filter_cons, hf]
      · simp [List.filter_cons, hf, ih]

/-- C4 (classifier gate): classifying the empty text always yields
`uses_dataset = false` with `method = "none"`, and for nonempty text (with
the spaCy fallback disabled, as configured) `uses_dataset = true` iff at
least one compiled registry pattern — a usage regex or an escaped URL
literal — matches somewhere in the text. -/
theorem classify_usage_gate (raws : List RegexPat) (urls : List String)
    (spacy : String → ClassifyResult) (text : String) :
    (∀ useSpacy, classifyUsage (compilePatterns raws urls) useSpacy spacy ""
        = { uses_compendium := 0, method := "none", matched_patterns := [], evidence := "" }) ∧
    (text ≠ "" →
      ((classifyUsage (compilePatterns raws urls) false spacy text).uses_compendium = 1 ↔
        (∃ p ∈ raws, p.find text ≠ []) ∨ ∃ u ∈ urls, literalSpans u text ≠ [])) := by
  constructor
  · intro useSpacy
    simp [classifyUsage]
  · intro h
    have hstep : classifyUsage (compilePatterns raws urls) false spacy text
        = classifyWithRegex (compilePatterns raws urls) text := by
      simp [classifyUsage, h]
    rw [hstep]
    simp only [classifyWithRegex]
    by_cases he :
        ((compilePatterns raws urls).filter (fun p => !(p.find text).isEmpty)).isEmpty
    · rw [he]
      simp only [if_true]
      constructor
      · intro h01
        exact absurd h01 (by norm_num)
      · intro hex
        exfalso
        have : ((compilePatterns raws urls).filter
            (fun p => !(p.find text).isEmpty)).isEmpty = false := by
          rw [filter_isEmpty_eq_false_iff]
          rcases hex with ⟨p, hp, hne⟩ | ⟨u, hu, hne⟩
          · exact ⟨p, by simp [compilePatterns, hp], by simpa [List.isEmpty_iff] using hne⟩
          · refine ⟨literalPattern u, ?_, ?_⟩
            · simp [compilePatterns]
              exact Or.inr ⟨u, hu, rfl⟩
            · simpa [literalPattern, List.isEmpty_iff] using hne
        rw [this] at he
        exact Bool.false_ne_true he
    · rw [Bool.not_eq_true] at he
      simp only [he, Bool.false_eq_true, if_false]
      constructor
      · intro _
        have hex := (filter_isEmpty_eq_false_iff _ _).mp he
        rcases hex with ⟨p, hp, hfind⟩
        have hp2 : p ∈ raws ∨ ∃ a ∈ urls, literalPattern a = p := by
          simpa [compilePatterns] using hp
        rcases hp2 with hraw | ⟨u, hu, hpe⟩
        · exact Or.inl ⟨p, hraw, by simpa [List.isEmpty_iff] using hfind⟩
        · subst hpe
          exact Or.inr ⟨u, hu, by simpa [literalPattern, List.isEmpty_iff] using hfind⟩
      · intro _
        trivial

/-- Witness for `classify_usage_gate`: a text containing a registry URL
(in different case) is classified as using the dataset. -/
theorem classify_usage_gate_witness :
    (classifyUsage (compilePatterns [] ["ahrq.gov/chsp"]) false nullSpacy
        "see AHRQ.gov/chsp data").uses_compendium = 1 :=
  ((classify_usage_gate [] ["ahrq.gov/chsp"] nullSpacy "see AHRQ.gov/chsp data").2
    (by decide)).mpr (Or.inr ⟨"ahrq.gov/chsp", by decide, by decide⟩)

/-- C6 (no double counting): for each term-list signal category, if the
category already fires on a record, prepending one more matching term to
that category's list leaves the composite score unchanged — each category's
weight enters the sum at most once however many of its terms match. -/
theorem category_weight_once (w : Weights) (kl : Keywords) (r : Row) (t : String) :
    (containsSub (searchText r) (lowerChars t.data) = true → canonicalFires kl r = true →
      scoreRow w { kl with canonical_terms := t :: kl.canonical_terms } r = scoreRow w kl r) ∧
    (containsSub (searchText r) (lowerChars t.data) = true → integrationFires kl r = true →
      scoreRow w { kl with integration_terms := t :: kl.integration_terms } r = scoreRow w kl r) ∧
    (containsSub (searchText r) (lowerChars t.data) = true → scopeFires kl r = true →
      scoreRow w { kl with scope_terms := t :: kl.scope_terms } r = scoreRow w kl r) ∧
    (containsSub (searchText r) (lowerChars t.data) = true → geoFires kl r = true →
      scoreRow w { kl with neg_geography := t :: kl.neg_geography } r = scoreRow w kl r) ∧
    (containsSub (searchText r) (lowerChars t.data) = true → domFires kl r = true →
      scoreRow w { kl with neg_domain := t :: kl.neg_domain } r = scoreRow w kl r) ∧
    ((!pyIsDigit t) = true →
      containsSub (lowerChars (pstrip r.author_string.data)) (lowerChars t.data) = true →
      seedFires kl r = true →
      scoreRow w { kl with dataset_author_seeds := t :: kl.dataset_author_seeds } r
        = scoreRow w kl r) := by
  refine ⟨?_, ?_, ?_, ?_, ?_, ?_⟩
  · intro hm hf
    have h1 : canonicalFires { kl with canonical_terms := t :: kl.canonical_terms } r = true := by
      simp [canonicalFires, canonicalMatches, List.filter_cons, hm]
    simp only [scoreRow, h1, hf]
    rfl
  · intro hm hf
    have h1 : integrationFires { kl with integration_terms := t :: kl.integration_terms } r
        = true := by
      simp [integrationFires, integrationMatches, List.filter_cons, hm]
    simp only [scoreRow, h1, hf]
    rfl
  · intro hm hf
    have h1 : scopeFires { kl with scope_terms := t :: kl.scope_terms } r = true := by
      simp [scopeFires, scopeMatches, List.filter_cons, hm]
    simp only [scoreRow, h1, hf]
    rfl
  · intro hm hf
    have h1 : geoFires { kl with neg_geography := t :: kl.neg_geography } r = true := by
      simp [geoFires, geoMatches, List.filter_cons, hm]
    simp only [scoreRow, h1, hf]
    rfl
  · intro hm hf
    have h1 : domFires { kl with neg_domain := t :: kl.neg_domain } r = true := by
      simp [domFires, domMatches, List.filter_cons, hm]
    simp only [scoreRow, h1, hf]
    rfl
  · intro hd hm hf
    have h1 : seedFires { kl with dataset_author_seeds := t :: kl.dataset_author_seeds } r
        = true := by
      simp [seedFires, seedAuthorMatches, seedAuthors, List.filter_cons, hd, hm]
    simp only [scoreRow, h1, hf]
    rfl

/-- Witness for `category_weight_once`: on a record already matching every
category, prepending the additionally matching term `"smith"` to each
category leaves the score unchanged. -/
theorem category_weight_once_witness :
    scoreRow defaultWeights
        { dupKeywords with canonical_terms := "smith" :: dupKeywords.canonical_terms } dupRow
      = scoreRow defaultWeights dupKeywords dupRow ∧
    scoreRow defaultWeights
        { dupKeywords with integration_terms := "smith" :: dupKeywords.integration_terms } dupRow
      = scoreRow defaultWeights dupKeywords dupRow ∧
    scoreRow defaultWeights
        { dupKeywords with scope_terms := "smith" :: dupKeywords.scope_terms } dupRow
      = scoreRow defaultWeights dupKeywords dupRow ∧
    scoreRow defaultWeights
        { dupKeywords with neg_geography := "smith" :: dupKeywords.neg_geography } dupRow
      = scoreRow defaultWeights dupKeywords dupRow ∧
    scoreRow defaultWeights
        { dupKeywords with neg_domain := "smith" :: dupKeywords.neg_domain } dupRow
      = scoreRow defaultWeights dupKeywords dupRow ∧
    scoreRow defaultWeights
        { dupKeywords with dataset_author_seeds := "smith" :: dupKeywords.dataset_author_seeds }
        dupRow
      = scoreRow defaultWeights dupKeywords dupRow := by
  have h := category_weight_once defaultWeights dupKeywords dupRow "smith"
  exact ⟨h.1 (by decide) (by decide), h.2.1 (by decide) (by decide),
    h.2.2.1 (by decide) (by decide), h.2.2.2.1 (by decide) (by decide),
    h.2.2.2.2.1 (by decide) (by decide), h.2.2.2.2.2 (by decide) (by decide) (by decide)⟩

/-!  Order lemmas for the year ranking used by the merge sort. -/

/-- The year ranking is reflexive. -/
theorem rankLe_refl (u : Option Int) : rankLe u u = true := by
  cases u <;> simp [rankLe]

/-- The year ranking is total. -/
theorem rankLe_total (u v : Option Int) (h : rankLe u v = false) : rankLe v u = true := by
  cases u <;> cases v <;> simp_all [rankLe] <;> omega

/-- The year ranking is transitive. -/
theorem rankLe_trans (u v w : Option Int) (h1 : rankLe u v = true)
    (h2 : rankLe v w = true) : rankLe u w = true := by
  cases u <;> cases v <;> cases w <;> simp_all [rankLe] <;> omega

/-- The year ranking is antisymmetric. -/
theorem rankLe_antisymm (u v : Option Int) (h1 : rankLe u v = true)
    (h2 : rankLe v u = true) : u = v := by
  cases u <;> cases v <;> simp_all [rankLe] <;> omega

/-- Membership in an insertion. -/
theorem mem_insertRow (x a : Row) (l : List Row) :
    x ∈ insertRow a l ↔ x = a ∨ x ∈ l := by
  induction l with
  | nil => simp [insertRow]
  | cons b bs ih =>
      by_cases h : leRow a b
      · simp [insertRow, h]
      · simp only [insertRow, h, if_false, Bool.false_eq_true, List.mem_cons, ih]
        tauto

/-- Insertion permutes the element onto the list. -/
theorem insertRow_perm (a : Row) (l : List Row) : List.Perm (insertRow a l) (a :: l) := by
  induction l with
  | nil => rfl
  | cons b bs ih =>
      by_cases h : leRow a b
      · simp [insertRow, h]
      · simp only [insertRow, h, if_false, Bool.false_eq_true]
        exact (ih.cons b).trans (List.Perm.swap a b bs)

/-- The sort is a permutation of its input. -/
theorem sortRows_perm (l : List Row) : List.Perm (sortRows l) l := by
  induction l with
  | nil => rfl
  | cons a bs ih => exact (insertRow_perm a (sortRows bs)).trans (ih.cons a)

/-- Inserting into a sorted list keeps it sorted. -/
theorem pairwise_insertRow (a : Row) (l : List Row)
    (h : l.Pairwise (fun x y => leRow x y = true)) :
    (insertRow a l).Pairwise (fun x y => leRow x y = true) := by
  induction l with
  | nil => simp [insertRow]
  | cons b bs ih =>
      rcases List.pairwise_cons.mp h with ⟨hb, hbs⟩
      by_cases hab : leRow a b
      · simp only [insertRow, hab, if_true]
        refine List.pairwise_cons.mpr ⟨?_, h⟩
        intro y hy
        rcases List.mem_cons.mp hy with rfl | hy2
        · exact hab
        · exact rankLe_trans _ _ _ (hb y hy2) hab
      · simp only [insertRow, hab, if_false, Bool.false_eq_true]
        refine List.pairwise_cons.mpr ⟨?_, ih hbs⟩
        intro y hy
        rcases (mem_insertRow y a bs).mp hy with rfl | hy2
        · exact rankLe_total _ _ (by simpa [leRow] using hab)
        · exact hb y hy2

/-- The sorted list is pairwise ordered. -/
theorem sortRows_pairwise (l : List Row) :
    (sortRows l).Pairwise (fun x y => leRow x y = true) := by
  induction l with
  | nil => simp [sortRows]
  | cons a bs ih => exact pairwise_insertRow a (sortRows bs) ih

/-!  Deduplication lemmas: `drop_duplicates(keep='first')` semantics. -/

/-- Deduplication yields a sublist of its input. -/
theorem dedupAux_sublist {κ : Type} [DecidableEq κ] (key : Row → κ)
    (seen : List κ) (l : List Row) : List.Sublist (dedupAux key seen l) l := by
  induction l generalizing seen with
  | nil => simp [dedupAux]
  | cons r rest ih =>
      by_cases h : key r ∈ seen
      · rw [dedupAux, if_pos h]
        exact (ih seen).trans (List.sublist_cons_self r rest)
      · rw [dedupAux, if_neg h]
        exact (ih (key r :: seen)).cons₂ r

/-- Every kept row's key was unseen when deduplication reached it. -/
theorem dedupAux_key_not_seen {κ : Type} [DecidableEq κ] (key : Row → κ)
    (seen : List κ) (l : List Row) (x : Row) (hx : x ∈ dedupAux key seen l) :
    key x ∉ seen := by
  induction l generalizing seen with
  | nil => simp [dedupAux] at hx
  | cons r rest ih =>
      by_cases h : key r ∈ seen
      · rw [dedupAux, if_pos h] at hx
        exact ih seen hx
      · rw [dedupAux, if_neg h] at hx
        rcases List.mem_cons.mp hx with rfl | hx2
        · exact h
        · have h2 := ih (key r :: seen) hx2
          exact fun hc => h2 (List.mem_cons_of_mem _ hc)

/-- Deduplicated rows have pairwise distinct keys. -/
theorem dedupAux_pairwise_keys {κ : Type} [DecidableEq κ] (key : Row → κ)
    (seen : List κ) (l : List Row) :
    (dedupAux key seen l).Pairwise (fun a b => key a ≠ key b) := by
  induction l generalizing seen with
  | nil => simp [dedupAux]
  | cons r rest ih =>
      by_cases h : key r ∈ seen
      · rw [dedupAux, if_pos h]
        exact ih seen
      · rw [dedupAux, if_neg h]
        refine List.pairwise_cons.mpr ⟨?_, ih (key r :: seen)⟩
        intro y hy
        have h2 := dedupAux_key_not_seen key (key r :: seen) rest y hy
        exact fun hc => h2 (by rw [← hc]; exact List.mem_cons_self _ _)

/-- A kept row is the first row of the input carrying its key. -/
theorem dedupAux_find {κ : Type} [DecidableEq κ] (key : Row → κ)
    (seen : List κ) (l : List Row) (x : Row) (hx : x ∈ dedupAux key seen l) :
    l.find? (fun r => decide (key r = key x)) = some x := by
  induction l generalizing seen with
  | nil => simp [dedupAux] at hx
  | cons r rest ih =>
      by_cases h : key r ∈ seen
      · rw [dedupAux, if_pos h] at hx
        have hne : key r ≠ key x := by
          intro hc
          exact (dedupAux_key_not_seen key seen rest x hx) (hc ▸ h)
        rw [List.find?_cons_of_neg _ (by simpa using hne)]
        exact ih seen hx
      · rw [dedupAux, if_neg h] at hx
        rcases List.mem_cons.mp hx with rfl | hx2
        · rw [List.find?_cons_of_pos _ (by simp)]
        · have hne : key r ≠ key x := by
            intro hc
            have h2 := dedupAux_key_not_seen key (key r :: seen) rest x hx2
            exact h2 (by rw [← hc]; exact List.mem_cons_self _ _)
          rw [List.find?_cons_of_neg _ (by simpa using hne)]
          exact ih (key r :: seen) hx2

/-- Every key present in the input is represented in the deduplicated
output (unless it was already seen). -/
theorem dedupAux_exists {κ : Type} [DecidableEq κ] (key : Row → κ)
    (l : List Row) (seen : List κ) (kv : κ) (hk : ∃ y ∈ l, key y = kv) :
    kv ∈ seen ∨ ∃ x ∈ dedupAux key seen l, key x = kv := by
  induction l generalizing seen with
  | nil => simp at hk
  | cons r rest ih =>
      rcases hk with ⟨y, hy, hyk⟩
      by_cases h : key r ∈ seen
      · rw [dedupAux, if_pos h]
        rcases List.mem_cons.mp hy with rfl | hy2
        · exact Or.inl (hyk ▸ h)
        · exact ih seen ⟨y, hy2, hyk⟩
      · rw [dedupAux, if_neg h]
        rcases List.mem_cons.mp hy with rfl | hy2
        · exact Or.inr ⟨y, List.mem_cons_self _ _, hyk⟩
        · rcases ih (key r :: seen) ⟨y, hy2, hyk⟩ with hin | ⟨x, hx, hxk⟩
          · rcases List.mem_cons.mp hin with rfl | hin2
            · exact Or.inr ⟨r, List.mem_cons_self _ _, rfl⟩
            · exact Or.inl hin2
          · exact Or.inr ⟨x, List.mem_cons_of_mem _ hx, hxk⟩

/-- Splitting a list at the result of `find?`: everything before the hit
fails the predicate. -/
theorem find?_split {α : Type} (p : α → Bool) (l : List α) (a : α)
    (h : l.find? p = some a) :
    ∃ s t, l = s ++ a :: t ∧ ∀ x ∈ s, p x = false := by
  induction l with
  | nil => simp [List.find?] at h
  | cons b l ih =>
      by_cases hb : p b
      · rw [List.find?_cons_of_pos _ hb] at h
        cases h
        exact ⟨[], l, rfl, by simp⟩
      · rw [List.find?_cons_of_neg _ hb] at h
        rcases ih h with ⟨s, t, rfl, hs⟩
        refine ⟨b :: s, t, rfl, ?_⟩
        intro x hx
        rcases List.mem_cons.mp hx with rfl | hx2
        · simpa using hb
        · exact hs x hx2

/-- A list whose elements satisfy a predicate pairwise-exclusively contains
at most one satisfying element. -/
theorem countP_le_one_of_pairwise {α : Type} (p : α → Bool) (l : List α)
    (h : l.Pairwise (fun a b => ¬(p a = true ∧ p b = true))) :
    l.countP p ≤ 1 := by
  induction l with
  | nil => simp
  | cons a l ih =>
      rw [List.countP_cons]
      rcases List.pairwise_cons.mp h with ⟨ha, hl⟩
      by_cases hpa : p a
      · have hz : l.countP p = 0 := by
          rw [List.countP_eq_zero]
          intro x hx hpx
          exact ha x hx ⟨hpa, hpx⟩
        simp [hz, hpa]
      · simp only [hpa]
        simpa using ih hl

/-- Deduplicating by DOI leaves rows with pairwise-distinct DOI keys, and
the title-stage dedup only removes rows, so at most one survivor can carry
any given DOI — whatever order the rows were in. -/
theorem dedup_countP_doi_le_one (s : List Row) (d : String) :
    (dedupKeys (fun r => titleNorm r.title) (dedupKeys (fun r => r.doi) s)).countP
      (fun r => decide (r.doi = some d)) ≤ 1 := by
  have hpw := dedupAux_pairwise_keys (fun r => r.doi) [] s
  have hpw2 : (dedupKeys (fun r => r.doi) s).Pairwise
      (fun a b => ¬(decide (a.doi = some d) = true ∧ decide (b.doi = some d) = true)) := by
    refine hpw.imp ?_
    intro a b hab hc
    exact hab ((of_decide_eq_true hc.1).trans (of_decide_eq_true hc.2).symm)
  have hsub : List.Sublist
      (dedupKeys (fun r => titleNorm r.title) (dedupKeys (fun r => r.doi) s))
      (dedupKeys (fun r => r.doi) s) :=
    dedupAux_sublist (fun r => titleNorm r.title) [] (dedupKeys (fun r => r.doi) s)
  exact le_trans (hsub.countP_le _) (countP_le_one_of_pairwise _ _ hpw2)

/-- C1 (amended): the per-DOI guarantees of merge/dedup, proved for *every*
descending-year order of the merged rows — pandas' default quicksort is not
stable, so the order among equal-year rows is unspecified, and these are
exactly the conclusions that hold for all such orders: after dedup at most
one record carries any given non-absent DOI, the DOI-dedup stage retains
exactly one record per represented DOI, and every surviving record with
that DOI has the highest year of its DOI group.  The same three conclusions
are then instantiated at the concrete pipeline (`mergeDeduplicate`,
`doiStage`).  Neither an exactly-one guarantee for the final output nor an
arrival-order tie-break holds of the code: the former fails by the
counterexample below, the latter would require a stable sort. -/
theorem merge_dedup_doi_identity (dfs : List (List Row)) (d : String) :
    (∀ s : List Row, List.Perm s (mergedRows dfs) →
      s.Pairwise (fun a b => leRow a b = true) →
      ((dedupKeys (fun r => titleNorm r.title) (dedupKeys (fun r => r.doi) s)).countP
          (fun r => decide (r.doi = some d)) ≤ 1) ∧
      ((∃ y ∈ mergedRows dfs, y.doi = some d) →
        (dedupKeys (fun r => r.doi) s).countP (fun r => decide (r.doi = some d)) = 1) ∧
      (∀ x ∈ dedupKeys (fun r => titleNorm r.title) (dedupKeys (fun r => r.doi) s),
        x.doi = some d →
        x ∈ mergedRows dfs ∧
        ∀ y ∈ mergedRows dfs, y.doi = some d → rankLe y.year x.year = true)) ∧
    ((mergeDeduplicate dfs).countP (fun r => decide (r.doi = some d)) ≤ 1) ∧
    ((∃ y ∈ mergedRows dfs, y.doi = some d) →
      (doiStage dfs).countP (fun r => decide (r.doi = some d)) = 1) ∧
    (∀ x ∈ mergeDeduplicate dfs, x.doi = some d →
      x ∈ mergedRows dfs ∧
      ∀ y ∈ mergedRows dfs, y.doi = some d → rankLe y.year x.year = true) := by
  have habs : ∀ s : List Row, List.Perm s (mergedRows dfs) →
      s.Pairwise (fun a b => leRow a b = true) →
      ((dedupKeys (fun r => titleNorm r.title) (dedupKeys (fun r => r.doi) s)).countP
          (fun r => decide (r.doi = some d)) ≤ 1) ∧
      ((∃ y ∈ mergedRows dfs, y.doi = some d) →
        (dedupKeys (fun r => r.doi) s).countP (fun r => decide (r.doi = some d)) = 1) ∧
      (∀ x ∈ dedupKeys (fun r => titleNorm r.title) (dedupKeys (fun r => r.doi) s),
        x.doi = some d →
        x ∈ mergedRows dfs ∧
        ∀ y ∈ mergedRows dfs, y.doi = some d → rankLe y.year x.year = true) := by
    intro s hperm hsort
    refine ⟨dedup_countP_doi_le_one s d, ?_, ?_⟩
    · rintro ⟨y, hy, hyd⟩
      have hys : y ∈ s := hperm.mem_iff.mpr hy
      rcases dedupAux_exists (fun r => r.doi) s [] (some d) ⟨y, hys, hyd⟩ with
        hin | ⟨x, hx, hxk⟩
      · simp at hin
      · have hge : 0 < (dedupKeys (fun r => r.doi) s).countP
            (fun r => decide (r.doi = some d)) := by
          rw [List.countP_pos_iff]
          exact ⟨x, hx, by simp [hxk]⟩
        have hle : (dedupKeys (fun r => r.doi) s).countP
            (fun r => decide (r.doi = some d)) ≤ 1 := by
          have hpw := dedupAux_pairwise_keys (fun r => r.doi) [] s
          have hpw2 : (dedupKeys (fun r => r.doi) s).Pairwise
              (fun a b =>
                ¬(decide (a.doi = some d) = true ∧ decide (b.doi = some d) = true)) := by
            refine hpw.imp ?_
            intro a b hab hc
            exact hab ((of_decide_eq_true hc.1).trans (of_decide_eq_true hc.2).symm)
          exact countP_le_one_of_pairwise _ _ hpw2
        omega
    · intro x hx hxd
      have hx1 : x ∈ dedupKeys (fun r => r.doi) s :=
        (dedupAux_sublist (fun r => titleNorm r.title) [] _).subset hx
      have hfind := dedupAux_find (fun r => r.doi) [] s x hx1
      have hxs : x ∈ s := List.mem_of_find?_eq_some hfind
      have hxm : x ∈ mergedRows dfs := hperm.mem_iff.mp hxs
      rcases find?_split _ _ _ hfind with ⟨s₁, s₂, hsplit, hs₁⟩
      refine ⟨hxm, ?_⟩
      intro y hy hyd
      have hys : y ∈ s := hperm.mem_iff.mpr hy
      rw [hsplit] at hys
      rcases List.mem_append.mp hys with hy1 | hy2
      · exfalso
        have hz := hs₁ y hy1
        simp [hyd, hxd] at hz
      · rcases List.mem_cons.mp hy2 with rfl | hy3
        · exact rankLe_refl _
        · have hpw := hsort
          rw [hsplit] at hpw
          have h2 := (List.pairwise_append.mp hpw).2.1
          have h3 := (List.pairwise_cons.mp h2).1 y hy3
          simpa [leRow] using h3
  have hconc := habs (sortRows (mergedRows dfs)) (sortRows_perm _) (sortRows_pairwise _)
  exact ⟨habs, hconc.1, hconc.2.1, hconc.2.2⟩

/-- Counterexample to C1 as stated: `cexA` and `cexB` share the non-absent
DOI `10.1/x`, yet merge/dedup leaves zero records with that DOI — the DOI
survivor `cexA` is subsequently removed by the title-stage dedup because the
later-year `cexC` has the same normalized title under a different DOI. -/
theorem merge_dedup_doi_exactly_one_fails :
    cexA.doi = some "10.1/x" ∧ cexB.doi = some "10.1/x" ∧ cexA ≠ cexB ∧
    (mergeDeduplicate [[cexA, cexB, cexC]]).countP
        (fun r => decide (r.doi = some "10.1/x")) = 0 := by
  decide

/-- Witness for `merge_dedup_doi_identity` at a two-record input sharing one
DOI: at most one survivor, exactly one DOI-stage survivor, the survivor
dominating every group member's year rank, and the same for an explicitly
supplied admissible sorted order. -/
theorem merge_dedup_doi_identity_witness :
    (mergeDeduplicate [[cexA, cexB]]).countP
        (fun r => decide (r.doi = some "10.1/x")) ≤ 1 ∧
    (doiStage [[cexA, cexB]]).countP (fun r => decide (r.doi = some "10.1/x")) = 1 ∧
    (∀ y ∈ mergedRows [[cexA, cexB]], y.doi = some "10.1/x" →
      rankLe y.year cexA.year = true) ∧
    (dedupKeys (fun r => r.doi) [cexA, cexB]).countP
        (fun r => decide (r.doi = some "10.1/x")) = 1 := by
  have h := merge_dedup_doi_identity [[cexA, cexB]] "10.1/x"
  have habs := h.1 [cexA, cexB] (by decide) (by decide)
  exact ⟨h.2.1, h.2.2.1 ⟨cexA, by decide, by decide⟩,
    (h.2.2.2 cexA (by decide) (by decide)).2,
    habs.2.1 ⟨cexA, by decide, by decide⟩⟩

/-- C2, evaluated on the code: two distinct identity-less records — no DOI,
empty title — are nonetheless collapsed to one by merge/dedup, because
`drop_duplicates` treats their two absent DOIs (and their two empty
normalized titles) as equal keys. -/
theorem identityless_rows_collapsed :
    blankRow1.doi = none ∧ blankRow2.doi = none ∧
    titleNorm blankRow1.title = "" ∧ titleNorm blankRow2.title = "" ∧
    blankRow1 ≠ blankRow2 ∧
    mergeDeduplicate [[blankRow1, blankRow2]] = [blankRow1] := by
  decide

/-- Lowercasing never produces an uppercase letter. -/
theorem lowerChar_not_upper (c : Char) : (lowerChar c).isUpper = false := by
  unfold lowerChar
  split
  case isTrue h =>
      rcases Bool.and_eq_true_iff.mp h with ⟨ha, hb⟩
      have h1n : (65 : Nat) ≤ c.val.toNat := of_decide_eq_true ha
      have h2n : c.val.toNat ≤ 90 := of_decide_eq_true hb
      simp only [Char.isUpper]
      rw [Bool.and_eq_false_iff]
      right
      apply decide_eq_false
      intro hle
      have h3 : (c.val + 32).toNat ≤ 90 := hle
      have hadd : (c.val + 32).toNat = (c.val.toNat + 32) % 4294967296 := rfl
      omega
  case isFalse h => simpa using h

/-- The result of `lowerStr` is fully lowercase. -/
theorem isLowerStr_lowerStr (s : String) : isLowerStr (lowerStr s) = true := by
  rw [isLowerStr, List.all_eq_true]
  intro c hc
  rcases List.mem_map.mp hc with ⟨c0, _, rfl⟩
  simp [lowerChar_not_upper]

/-- C7 (amended): the DOI produced by collector normalization, when present,
is fully lowercase whatever the raw input's casing (though surrounding
whitespace is not stripped), and every record surviving merge/dedup carries
a fully lowercase DOI whenever one is present, since the merge lowercases
all DOIs again. -/
theorem doi_lowercase_invariant :
    (∀ raw s, normalizeDoi raw = some s → isLowerStr s = true) ∧
    (∀ dfs : List (List Row), ∀ r ∈ mergeDeduplicate dfs, ∀ s, r.doi = some s →
      isLowerStr s = true) := by
  constructor
  · intro raw s h
    cases raw with
    | none => simp [normalizeDoi] at h
    | some t =>
        rw [normalizeDoi] at h
        by_cases ht : t = ""
        · simp [ht] at h
        · simp only [ht, if_false] at h
          cases h
          exact isLowerStr_lowerStr t
  · intro dfs r hr s hs
    have h1 : r ∈ doiStage dfs :=
      (dedupAux_sublist (fun a => titleNorm a.title) [] (doiStage dfs)).subset hr
    have h2 : r ∈ sortRows (mergedRows dfs) :=
      (dedupAux_sublist (fun a => a.doi) [] _).subset h1
    have h3 : r ∈ mergedRows dfs := (sortRows_perm _).mem_iff.mp h2
    rcases List.mem_map.mp h3 with ⟨y, _, rfl⟩
    rw [lowerDoiRow] at hs
    cases hy : y.doi with
    | none =>
        rw [hy] at hs
        simp at hs
    | some t =>
        rw [hy] at hs
        simp only [Option.map_some] at hs
        cases hs
        exact isLowerStr_lowerStr t

/-- Counterexample to C7 as stated: a raw DOI with surrounding whitespace is
lowercased but not stripped by normalization, so the normalized DOI retains
its surrounding whitespace. -/
theorem doi_whitespace_not_stripped :
    normalizeDoi (some " 10.1/ABC ") = some " 10.1/abc " ∧
    (" 10.1/abc " : String) ≠ ⟨pstrip " 10.1/abc ".data⟩ := by
  decide

/-- Witness for `doi_lowercase_invariant`: the normalizer's output on a
mixed-case raw DOI, and a merge survivor's DOI, are both fully lowercase. -/
theorem doi_lowercase_invariant_witness :
    isLowerStr " 10.1/abc " = true ∧ isLowerStr "10.1/x" = true :=
  ⟨doi_lowercase_invariant.1 (some " 10.1/ABC ") " 10.1/abc " (by decide),
   doi_lowercase_invariant.2 [[cexA]] cexA (by decide) "10.1/x" (by decide)⟩

/-!  Substring-monotonicity lemmas for the scoring text. -/

/-- `containsSub` decides infix containment. -/
theorem containsSub_infix_iff (hay needle : List Char) :
    containsSub hay needle = true ↔ needle <:+: hay := by
  induction hay with
  | nil =>
      rw [containsSub]
      simp [List.isEmpty_iff]
  | cons c t ih =>
      rw [containsSub, Bool.or_eq_true, List.isPrefixOf_iff_prefix, ih,
        List.infix_cons_iff]

/-- Infix containment survives extending the haystack on the right. -/
theorem infix_of_infix_append (n a b : List Char) (h : n <:+: a) : n <:+: a ++ b := by
  rcases h with ⟨u, v, huv⟩
  exact ⟨u, v ++ b, by rw [← huv]; simp⟩

/-- `dropWhile` over an append when the first part is dropped entirely. -/
theorem dropWhile_append_of_eq_nil (p : Char → Bool) (a b : List Char)
    (h : a.dropWhile p = []) : (a ++ b).dropWhile p = b.dropWhile p := by
  induction a with
  | nil => simp
  | cons c cs ih =>
      rw [List.dropWhile_cons] at h
      rw [List.cons_append, List.dropWhile_cons]
      cases hc : p c with
      | false =>
          rw [hc] at h
          simp at h
      | true =>
          rw [hc] at h
          simp only [if_true]
          exact ih h

/-- `dropWhile` over an append when the first part is not dropped
entirely. -/
theorem dropWhile_append_of_ne_nil (p : Char → Bool) (a b : List Char)
    (h : a.dropWhile p ≠ []) : (a ++ b).dropWhile p = a.dropWhile p ++ b := by
  induction a with
  | nil => simp at h
  | cons c cs ih =>
      rw [List.dropWhile_cons] at h ⊢
      rw [List.cons_append, List.dropWhile_cons]
      cases hc : p c with
      | false =>
          rw [hc] at h
          simp
      | true =>
          rw [hc] at h
          simp only [if_true] at h ⊢
          exact ih h

/-- Dropping a trailing run of characters leaves an initial segment. -/
theorem rdrop_isPrefix (p : Char → Bool) (x : List Char) :
    (x.reverse.dropWhile p).reverse <+: x := by
  have h := List.dropWhile_suffix (l := x.reverse) p
  have h2 := List.reverse_prefix.mpr h
  rwa [List.reverse_reverse] at h2

/-- Stripping commutes with right extension up to a suffix: the stripped
original text is an initial segment of the stripped extended text. -/
theorem pstrip_prefix_append (a b : List Char) : pstrip a <+: pstrip (a ++ b) := by
  by_cases h : a.dropWhile Char.isWhitespace = []
  · have h1 : pstrip a = [] := by simp [pstrip, h]
    rw [h1]
    exact List.nil_prefix
  · rw [pstrip, pstrip, dropWhile_append_of_ne_nil _ _ _ h, List.reverse_append]
    by_cases hb : (b.reverse).dropWhile Char.isWhitespace = []
    · rw [dropWhile_append_of_eq_nil _ _ _ hb]
    · rw [dropWhile_append_of_ne_nil _ _ _ hb, List.reverse_append,
        List.reverse_reverse]
      exact (rdrop_isPrefix _ _).trans (List.prefix_append _ _)

/-- Appending to the abstract only extends the search text on the right. -/
theorem searchText_abstract_append (r : Row) (s : String) :
    ∃ ext, searchText { r with abstract := r.abstract ++ s }
      = searchText r ++ ext := by
  rcases pstrip_prefix_append r.abstract.data s.data with ⟨u, hu⟩
  refine ⟨lowerChars u, ?_⟩
  show lowerChars (pstrip r.title.data ++ ' ' :: pstrip (r.abstract ++ s).data)
    = lowerChars (pstrip r.title.data ++ ' ' :: pstrip r.abstract.data) ++ lowerChars u
  rw [String.data_append, ← hu, lowerChars, lowerChars, lowerChars, ← List.map_append]
  congr 1
  simp

/-- A term matching the original search text still matches after the
abstract is extended. -/
theorem containsSub_searchText_mono (r : Row) (s : String) (t : List Char)
    (h : containsSub (searchText r) t = true) :
    containsSub (searchText { r with abstract := r.abstract ++ s }) t = true := by
  rcases searchText_abstract_append r s with ⟨ext, hext⟩
  rw [containsSub_infix_iff] at h ⊢
  rw [hext]
  exact infix_of_infix_append _ _ _ h

/-- A fired term-list category keeps firing when the abstract is extended. -/
theorem termFires_abstract_append (terms : List String) (r : Row) (s : String)
    (h : (!(terms.filter
        (fun t => containsSub (searchText r) (lowerChars t.data))).isEmpty) = true) :
    (!(terms.filter (fun t =>
        containsSub (searchText { r with abstract := r.abstract ++ s })
          (lowerChars t.data))).isEmpty) = true := by
  rw [Bool.not_eq_true'] at h ⊢
  rcases (filter_isEmpty_eq_false_iff _ _).mp h with ⟨t, ht, hmatch⟩
  exact (filter_isEmpty_eq_false_iff _ _).mpr
    ⟨t, ht, containsSub_searchText_mono r s _ hmatch⟩

/-- C5 (scoring monotonicity): with the configured weights, extending a
record's abstract so that a canonical term newly matches never lowers the
relevance score: the canonical bonus (+2) dominates the worst case in which
the added text also triggers both negative categories (−1 each), and every
previously matching category keeps matching. -/
theorem score_canonical_monotonic (kl : Keywords) (r : Row) (s : String)
    (h1 : canonicalFires kl r = false)
    (h2 : canonicalFires kl { r with abstract := r.abstract ++ s } = true) :
    scoreRow defaultWeights kl r
      ≤ scoreRow defaultWeights kl { r with abstract := r.abstract ++ s } := by
  have hseed : seedFires kl { r with abstract := r.abstract ++ s } = seedFires kl r := rfl
  have hjour : journalFires kl { r with abstract := r.abstract ++ s }
      = journalFires kl r := rfl
  have hshort : shortTitleFlag { r with abstract := r.abstract ++ s }
      = shortTitleFlag r := rfl
  have hold : oldPaperFlag { r with abstract := r.abstract ++ s }
      = oldPaperFlag r := rfl
  have hImono : integrationFires kl r = true →
      integrationFires kl { r with abstract := r.abstract ++ s } = true := by
    intro h
    exact termFires_abstract_append kl.integration_terms r s h
  have hSmono : scopeFires kl r = true →
      scopeFires kl { r with abstract := r.abstract ++ s } = true := by
    intro h
    exact termFires_abstract_append kl.scope_terms r s h
  have hGmono : geoFires kl r = true →
      geoFires kl { r with abstract := r.abstract ++ s } = true := by
    intro h
    exact termFires_abstract_append kl.neg_geography r s h
  have hDmono : domFires kl r = true →
      domFires kl { r with abstract := r.abstract ++ s } = true := by
    intro h
    exact termFires_abstract_append kl.neg_domain r s h
  simp only [scoreRow, defaultWeights, h1, h2, hseed, hjour, hshort, hold,
    Bool.false_eq_true, if_false, if_true]
  have e1 : (if integrationFires kl r = true then (1:ℚ) else 0)
      ≤ (if integrationFires kl { r with abstract := r.abstract ++ s } = true
          then (1:ℚ) else 0) := by
    by_cases hx : integrationFires kl r = true
    · rw [if_pos hx, if_pos (hImono hx)]
    · rw [if_neg hx]
      by_cases hy : integrationFires kl { r with abstract := r.abstract ++ s } = true
      · rw [if_pos hy]
        norm_num
      · rw [if_neg hy]
  have e2 : (if scopeFires kl r = true then (1:ℚ) else 0)
      ≤ (if scopeFires kl { r with abstract := r.abstract ++ s } = true
          then (1:ℚ) else 0) := by
    by_cases hx : scopeFires kl r = true
    · rw [if_pos hx, if_pos (hSmono hx)]
    · rw [if_neg hx]
      by_cases hy : scopeFires kl { r with abstract := r.abstract ++ s } = true
      · rw [if_pos hy]
        norm_num
      · rw [if_neg hy]
  have e3 : (if geoFires kl r = true then (-1:ℚ) else 0) - 1
      ≤ (if geoFires kl { r with abstract := r.abstract ++ s } = true
          then (-1:ℚ) else 0) := by
    by_cases hx : geoFires kl r = true
    · rw [if_pos hx, if_pos (hGmono hx)]
      norm_num
    · rw [if_neg hx]
      by_cases hy : geoFires kl { r with abstract := r.abstract ++ s } = true
      · rw [if_pos hy]
        norm_num
      · rw [if_neg hy]
        norm_num
  have e4 : (if domFires kl r = true then (-1:ℚ) else 0) - 1
      ≤ (if domFires kl { r with abstract := r.abstract ++ s } = true
          then (-1:ℚ) else 0) := by
    by_cases hx : domFires kl r = true
    · rw [if_pos hx, if_pos (hDmono hx)]
      norm_num
    · rw [if_neg hx]
      by_cases hy : domFires kl { r with abstract := r.abstract ++ s } = true
      · rw [if_pos hy]
        norm_num
      · rw [if_neg hy]
        norm_num
  linarith [e1, e2, e3, e4]

/-- Witness for `score_canonical_monotonic`: appending a canonical mention
to a plain abstract does not lower the sample row's score. -/
theorem score_canonical_monotonic_witness :
    scoreRow defaultWeights sampleKeywords monoRow
      ≤ scoreRow defaultWeights sampleKeywords
          { monoRow with abstract := monoRow.abstract ++ " uses the AHRQ Compendium" } :=
  score_canonical_monotonic sampleKeywords monoRow " uses the AHRQ Compendium"
    (by decide) (by decide)

end Ahrq
